import Mathlib

/-!
Verification of the music21 `stream.py` temporal container engine.

A shallow embedding of `src/music21/stream.py` (the Stream/Measure container
core) together with proofs and refutations of the specification claims about
it.  Offsets and durations are modelled as rationals (the spec describes them
as "abstract rational beat positions"); Python `None` durations become
`Option.none`; fallible operations return `Except String`.

The embedding follows the source closely:

* `MObj` is a contained element: either a plain timed object (`leaf`, with the
  identity, optional `duration.quarterLength` and explicit `priority` of a
  `Music21Object`) or a nested stream (`sub`, carrying the nested stream's
  element list, its `isSorted` / `isFlat` flags and its cached aggregates).
  The base-class attributes (`duration`, `priority`, the per-site offset map)
  live in `music21/__init__.py`, which is not part of the sources provided;
  following the spec, an element's offset inside a container is the offset the
  site registry holds for that container, which we represent as the first
  component of each `(offset, element)` pair in the container's element list.
* `StreamSt` is the mutable state of a top-level `Stream`: `_elements`,
  `isSorted`, `isFlat` and the `_cache` entries for the aggregates
  (`HighestOffset`, `HighestTime`); `_elementsChanged` clears them.
* Operations that mutate `self` are modelled by returning the new state of
  `self` (`sortedOp`, which sorts `self._elements` in place, returns the
  updated source next to the produced stream; `_getFlatOrSemiFlat` performs
  no write to `self`, so `flatOp` returns the source unchanged).
-/

/-- A contained element of a Stream, from `stream.py`.  `leaf` is any plain
`Music21Object` (identity, optional duration quarterLength, priority);
`sub` is a nested `Stream` used as an element: its element list, its
`isSorted` and `isFlat` flags, its cached `HighestOffset` / `HighestTime`
entries, and its own priority attribute. -/
inductive MObj where
  | leaf (ident : Nat) (dur : Option ℚ) (pr : ℤ) : MObj
  | sub (children : List (ℚ × MObj)) (subIsSorted : Bool) (subIsFlat : Bool)
        (subCacheHO : Option ℚ) (subCacheHT : Option ℚ) (pr : ℤ) : MObj

/-- Test `isinstance(el, Stream)`, also used as `hasattr(el, "elements")`. -/
def MObj.isStream : MObj → Bool
  | .leaf _ _ _ => false
  | .sub _ _ _ _ _ _ => true

/-- The `priority` attribute used by the sort comparator in `_getSorted`. -/
def MObj.priority : MObj → ℤ
  | .leaf _ _ p => p
  | .sub _ _ _ _ _ p => p

mutual

/-- The attribute `element.duration.quarterLength` as an optional value: a leaf carries its
own optional duration; a nested Stream's duration is linked to its
`highestTime` (`stream.py`, `_getDuration`). -/
def MObj.durQL : MObj → Option ℚ
  | .leaf _ d _ => d
  | .sub ces so _ _ cht _ => some (streamHT ces so cht)
termination_by x => sizeOf x

/-- Source `_getHighestTime` (`stream.py` lines 2068-2119): cached value if present;
0 when empty; when `isSorted` is set, the last element's offset plus duration;
otherwise the maximum of offset plus duration over all elements (an element
without a duration contributes its offset alone). -/
def streamHT (es : List (ℚ × MObj)) (so : Bool) (cht : Option ℚ) : ℚ :=
  match cht with
  | some v => v
  | none =>
    match es with
    | [] => 0
    | e :: rest => if so then lastEnd e rest else maxEnd (elemEnd e) rest
termination_by sizeOf es

/-- End time of the final element, used by the `isSorted` branch of
`_getHighestTime`. -/
def lastEnd : (ℚ × MObj) → List (ℚ × MObj) → ℚ
  | e, [] => elemEnd e
  | _, e2 :: rest => lastEnd e2 rest
termination_by e rest => sizeOf e + sizeOf rest

/-- The max-accumulating loop of the unsorted branch of `_getHighestTime`. -/
def maxEnd : ℚ → List (ℚ × MObj) → ℚ
  | acc, [] => acc
  | acc, e :: rest => maxEnd (if elemEnd e > acc then elemEnd e else acc) rest
termination_by _ es => sizeOf es

/-- One element's release time: offset plus duration, or the offset alone when
the element has no duration. -/
def elemEnd : ℚ × MObj → ℚ
  | (o, e) => match e.durQL with | some d => o + d | none => o
termination_by p => sizeOf p

end

/-- State of a top-level Stream: `_elements` as `(offset-in-this-site, element)`
pairs, the `isSorted` / `isFlat` flags, and the `_cache` entries for the
`HighestOffset` and `HighestTime` aggregates. -/
structure StreamSt where
  elements : List (ℚ × MObj)
  isSorted : Bool
  isFlat : Bool
  cacheHO : Option ℚ
  cacheHT : Option ℚ

/-- Source `Stream.__init__`: empty element list, `isSorted` and `isFlat` true, fresh
cache. -/
def emptyStream : StreamSt := ⟨[], true, true, none, none⟩

/-- The `highestTime` property read on a stream state. -/
def StreamSt.highestTimeVal (s : StreamSt) : ℚ := streamHT s.elements s.isSorted s.cacheHT

/-- The offset of the final element (`isSorted` branch of
`_getHighestOffset`). -/
def lastOff : (ℚ × MObj) → List (ℚ × MObj) → ℚ
  | e, [] => e.1
  | _, e2 :: rest => lastOff e2 rest

/-- The max-accumulating loop of the unsorted branch of
`_getHighestOffset`. -/
def maxOff : ℚ → List (ℚ × MObj) → ℚ
  | acc, [] => acc
  | acc, e :: rest => maxOff (if e.1 > acc then e.1 else acc) rest

/-- Source `_getHighestOffset` (`stream.py` lines 2031-2053): cached value if
present; 0 when empty; last element's offset when `isSorted`; otherwise the
maximum offset. -/
def streamHO (es : List (ℚ × MObj)) (so : Bool) (cho : Option ℚ) : ℚ :=
  match cho with
  | some v => v
  | none =>
    match es with
    | [] => 0
    | e :: rest => if so then lastOff e rest else maxOff e.1 rest

/-- The `highestOffset` property read on a stream state. -/
def StreamSt.highestOffsetVal (s : StreamSt) : ℚ := streamHO s.elements s.isSorted s.cacheHO

/-- The `isFlat` recomputation done by `_elementsChanged`: flat iff no element
is itself a Stream. -/
def listIsFlat (es : List (ℚ × MObj)) : Bool := es.all (fun p => !p.2.isStream)

/-- Source `Stream.insert(offset, item)` (`stream.py` lines 411-481, two-argument
form): record the offset for this site, compute `storeSorted` from the current
`isSorted` flag and `highestTime <= offset`, append the element, run
`_elementsChanged` (which clears the caches and recomputes `isFlat`), and
restore `isSorted := storeSorted`. -/
def StreamSt.insert (s : StreamSt) (o : ℚ) (x : MObj) : StreamSt :=
  let storeSorted := s.isSorted && decide (s.highestTimeVal ≤ o)
  let es := s.elements ++ [(o, x)]
  ⟨es, storeSorted, listIsFlat es, none, none⟩

/-- The comparator of `_getSorted` (`stream.py` line 1912):
`cmp(x.offset, y.offset) or cmp(x.priority, y.priority)` — offsets first,
then the explicit `priority` attribute, nothing else. -/
def sortLe (p q : ℚ × MObj) : Prop :=
  p.1 < q.1 ∨ (p.1 = q.1 ∧ p.2.priority ≤ q.2.priority)

instance : DecidableRel sortLe := fun p q => by
  unfold sortLe; infer_instance

instance : IsTotal (ℚ × MObj) sortLe where
  total p q := by
    rcases lt_trichotomy p.1 q.1 with h | h | h
    · exact Or.inl (Or.inl h)
    · rcases le_total p.2.priority q.2.priority with hp | hp
      · exact Or.inl (Or.inr ⟨h, hp⟩)
      · exact Or.inr (Or.inr ⟨h.symm, hp⟩)
    · exact Or.inr (Or.inl h)

instance : IsTrans (ℚ × MObj) sortLe where
  trans p q r hpq hqr := by
    rcases hpq with h1 | ⟨e1, l1⟩
    · rcases hqr with h2 | ⟨e2, l2⟩
      · exact Or.inl (h1.trans h2)
      · exact Or.inl (e2 ▸ h1)
    · rcases hqr with h2 | ⟨e2, l2⟩
      · exact Or.inl (e1 ▸ h2)
      · exact Or.inr ⟨e1.trans e2, l1.trans l2⟩

/-- Python `self._elements.sort(cmp=...)`: CPython's list sort is a stable sort, so
its result is the insertion sort by the comparator's preorder. -/
def pySortPairs (l : List (ℚ × MObj)) : List (ℚ × MObj) := l.insertionSort sortLe

/-- Source `_getSorted` (`stream.py` lines 1866-1922) as a state transformer.
`post = self.elements` aliases `self._elements` (`_getElements`, line 249,
returns the list itself), so `post.sort(...)` reorders the source's own
element list in place, leaving the source's flags and caches untouched; the
produced stream is a shallow copy whose `elements` property is assigned that
same sorted list (triggering `_elementsChanged`: fresh cache, recomputed
`isFlat`) and whose `isSorted` is then set to true.  Returns
(state of `self` after the call, produced stream). -/
def StreamSt.sortedOp (s : StreamSt) : StreamSt × StreamSt :=
  let post := pySortPairs s.elements
  (⟨post, s.isSorted, s.isFlat, s.cacheHO, s.cacheHT⟩,
   ⟨post, true, listIsFlat post, none, none⟩)

/-- The element traversal of `_getFlatOrSemiFlat` with
`retainContainers=False` (`stream.py` lines 1992-2025): a nested stream
contributes the elements of its own `flat`, each shifted by the nested
stream's offset here; a plain element contributes itself at its offset.  The
list is the order in which `newStream.insert` is called. -/
def flatPairs : List (ℚ × MObj) → List (ℚ × MObj)
  | [] => []
  | (o, MObj.sub ces _ _ _ _ _) :: rest =>
      ((flatPairs ces).map (fun q => (o + q.1, q.2))) ++ flatPairs rest
  | (o, e) :: rest => (o, e) :: flatPairs rest

/-- Source `_getFlat` / `_getFlatOrSemiFlat(retainContainers=False)` as a state
transformer.  The method reads `self.elements` and inserts into a fresh
shallow copy only, so the source state passes through unchanged; the result
starts from an emptied copy (`_elements = []` plus `_elementsChanged`, hence
`isSorted=false`, `isFlat=true`, fresh cache), receives every flattened pair
through `insert`, and finally has `isFlat` forced to true. -/
def StreamSt.flatOp (s : StreamSt) : StreamSt × StreamSt :=
  let base : StreamSt := ⟨[], false, true, none, none⟩
  let r := (flatPairs s.elements).foldl (fun acc p => acc.insert p.1 p.2) base
  (s, ⟨r.elements, r.isSorted, true, r.cacheHO, r.cacheHT⟩)

/-- Written to the spec's words, for comparison with the source's
`_getHighestTime`: "the maximum over C's elements of (the element's offset in
C plus its duration, taking an undefined duration as 0), and 0 when C is
empty". -/
def specHighestTime (es : List (ℚ × MObj)) : ℚ :=
  ((es.map (fun p => p.1 + p.2.durQL.getD 0)).maximum).getD 0

/-- Lexicographic strict comparison of two span pairs, as Python list
comparison orders the two-element list `[a, b]` inside `_durSpanOverlap`. -/
def spanLexLt (a b : ℚ × ℚ) : Bool :=
  decide (a.1 < b.1) || (decide (a.1 = b.1) && decide (a.2 < b.2))

/-- Source `_durSpanOverlap(a, b, includeCoincidentBoundaries)` (`stream.py` lines
2691-2724): sort the two spans lexicographically (a stable sort keeps `a`
first on full ties) and report overlap when the later span's start is below
(or, with the flag, at) the earlier-sorted span's end. -/
def durSpanOverlap (a b : ℚ × ℚ) (icb : Bool) : Bool :=
  let lo := if spanLexLt b a then b else a
  let hi := if spanLexLt b a then a else b
  if icb then decide (hi.1 ≤ lo.2) else decide (hi.1 < lo.2)

/-- Source `_getDurSpan` (`stream.py` lines 2668-2688): per-element spans; an element
without a duration yields the degenerate point span. -/
def getDurSpan (es : List (ℚ × MObj)) : List (ℚ × ℚ) :=
  es.map (fun p => match p.2.durQL with | none => (p.1, p.1) | some d => (p.1, p.1 + d))

/-- Row `i` of the simultaneity map of `_findLayering`: skipped entirely when
durationless elements are excluded and element `i` has no duration; otherwise
all indices `j` different from `i` whose span starts at the same offset. -/
def simRow (spans : List (ℚ × ℚ)) (durless : List Bool) (includeDurationless : Bool)
    (i : ℕ) : List ℕ :=
  if !includeDurationless && durless.getD i false then []
  else (List.range spans.length).filter
    (fun j => decide (j ≠ i) && decide ((spans.getD i (0, 0)).1 = (spans.getD j (0, 0)).1))

/-- Row `i` of the overlap map of `_findLayering`: skipped under the same
condition; otherwise all indices `j` different from `i` whose span passes
`_durSpanOverlap`. -/
def overRow (spans : List (ℚ × ℚ)) (durless : List Bool) (includeDurationless icb : Bool)
    (i : ℕ) : List ℕ :=
  if !includeDurationless && durless.getD i false then []
  else (List.range spans.length).filter
    (fun j => decide (j ≠ i) && durSpanOverlap (spans.getD i (0, 0)) (spans.getD j (0, 0)) icb)

/-- Source `_findLayering(flatStream, includeDurationless, includeCoincidentBoundaries)`
(`stream.py` lines 2728-2768): sort the flattened view, build the parallel
span list, and return the (simultaneity map, overlap map) of per-element index
lists. -/
def findLayering (es : List (ℚ × MObj)) (includeDurationless icb : Bool) :
    List (List ℕ) × List (List ℕ) :=
  let sortedEs := pySortPairs es
  let spans := getDurSpan sortedEs
  let durless := sortedEs.map (fun p => p.2.durQL.isNone)
  ((List.range spans.length).map (simRow spans durless includeDurationless),
   (List.range spans.length).map (overRow spans durless includeDurationless icb))

/-- Modelled from the spec: `meter.TimeSignature` (module `meter.py`, not
among the provided sources) reduced to its numerator and denominator; the
spec's "active meter's bar duration" is `numer` beats of `4/denom` quarter
lengths each, so a 4/4 meter has bar duration 4. -/
structure TSig where
  numer : ℕ
  denom : ℕ
deriving DecidableEq

/-- The value `timeSignature.barDuration.quarterLength`. -/
def TSig.barQL (t : TSig) : ℚ := (t.numer : ℚ) * (4 / (t.denom : ℚ))

/-- The 4/4 meter. -/
def ts44 : TSig := ⟨4, 4⟩

/-- Modelled from the spec: the default meter built from
`defaults.meterNumerator` / `defaults.meterDenominatorBeatType` (module
`defaults.py`, not among the provided sources) is the 4/4 meter. -/
def defaultTS : TSig := ⟨4, 4⟩

/-- Modelled from the spec: `TimeSignature.ratioEqual` compares the two
meters as ratios, i.e. numerator and denominator. -/
def TSig.ratioEq (t u : TSig) : Bool := t.numer == u.numer && t.denom == u.denom

/-- A note-like element processed by the quantization pipeline: identity, a
defined `duration.quarterLength`, and whether a tie-start has been attached
(`note.Tie("start")`). -/
structure NoteE where
  ident : ℕ
  dur : ℚ
  tieStart : Bool
deriving DecidableEq

/-- A `Measure` produced by the pipeline: `measureNumber`, the
`timeSignature` assigned to it (if any — `makeMeasures` assigns one only when
the active meter changed), whether the best-fit clef was assigned (only the
first created measure), and its element list. -/
structure MeasureS where
  number : ℕ
  ts : Option TSig
  hasClef : Bool
  elems : List (ℚ × NoteE)
deriving DecidableEq

/-- The candidate-collecting loop of `getElementAtOrBefore` (`stream.py`
lines 984-1005) over a meter stream: for each element the trailing span
`offset - element.offset`; negative spans are skipped, zero spans always
collected, positive spans collected while not above the best span so far
(initially the query offset). -/
def tsCandidates (es : List (ℚ × TSig)) (off : ℚ) : List (ℚ × TSig) :=
  (es.foldl
    (fun (acc : ℚ × List (ℚ × TSig)) el =>
      let span := off - el.1
      if span < 0 then acc
      else if span = 0 then (span, acc.2 ++ [(span, el.2)])
      else if span ≤ acc.1 then (span, acc.2 ++ [(span, el.2)])
      else acc)
    (off, [])).2

/-- Python `candidates.sort(); return candidates[0][1]`: the first candidate with the
smallest span.  (On exact span ties Python would compare the element objects
themselves; no meter stream in this development has two elements at one
offset.) -/
def minBySpanFirst : List (ℚ × TSig) → Option TSig
  | [] => none
  | c :: rest => some ((rest.foldl (fun b c2 => if c2.1 < b.1 then c2 else b) c)).2

/-- The call `meterStream.getElementAtOrBefore(offset)`. -/
def getTSAtOrBefore (es : List (ℚ × TSig)) (off : ℚ) : Option TSig :=
  minBySpanFirst (tsCandidates es off)

/-- Source `_getHighestTime` specialized to a source stream of note elements (whose
durations are all defined) with a fresh cache: 0 when empty, the final
element's release when `isSorted`, otherwise the running maximum. -/
def noteMaxEnd : ℚ → List (ℚ × NoteE) → ℚ
  | acc, [] => acc
  | acc, e :: rest => noteMaxEnd (if e.1 + e.2.dur > acc then e.1 + e.2.dur else acc) rest

/-- Release time of the final note element. -/
def noteLastEnd : (ℚ × NoteE) → List (ℚ × NoteE) → ℚ
  | e, [] => e.1 + e.2.dur
  | _, e2 :: rest => noteLastEnd e2 rest

/-- The `highestTime` of the source stream handed to `makeMeasures`. -/
def noteHighestTime (es : List (ℚ × NoteE)) (so : Bool) : ℚ :=
  match es with
  | [] => 0
  | e :: rest => if so then noteLastEnd e rest else noteMaxEnd (e.1 + e.2.dur) rest

/-- The measure-creating loop of `makeMeasures` (`stream.py` lines 1474-1505):
starting at offset 0 with `measureCount = 0`, look up the active meter, create
a measure numbered `measureCount + 1` (assigning the meter only when it
changed, and the best-fit clef only to the first measure), fail on a
zero-length bar, append the measure, advance by the bar duration, and stop
once the advanced offset reaches `oMax`.  The `while True` loop is given fuel;
the source loops forever only if protected against by the zero-bar check. -/
def measuresLoop (meterStream : List (ℚ × TSig)) (oMax : ℚ) :
    ℕ → ℚ → ℕ → Option TSig → List (ℚ × MeasureS) → Except String (List (ℚ × MeasureS))
  | 0, _, _, _, _ => Except.error "out of loop fuel"
  | fuel+1, o, mc, lastTS, post =>
    match getTSAtOrBefore meterStream o with
    | none => Except.error "no meter found at offset"
    | some ts =>
      let m : MeasureS := ⟨mc + 1, if lastTS = some ts then none else some ts, mc == 0, []⟩
      if ts.barQL = 0 then Except.error "time signature has no duration"
      else
        let post2 := post ++ [(o, m)]
        let o2 := o + ts.barQL
        if oMax ≤ o2 then Except.ok post2
        else measuresLoop meterStream oMax fuel o2 (mc + 1) (some ts) post2

/-- The per-element placement scan of `makeMeasures` (`stream.py` lines
1508-1536): walk the created measures in order, tracking the last assigned
time signature to know each measure's span `[mStart, mStart + bar)`; reinsert
the element into the first measure whose span contains its start, at the
measure-relative offset; fail if a measure has no governing meter or if no
measure matches. -/
def placeElement (ms : List (ℚ × MeasureS)) (lastTS : Option TSig) (start : ℚ) (e : NoteE) :
    Except String (List (ℚ × MeasureS)) :=
  match ms with
  | [] => Except.error "cannot place element within any measures"
  | (mStart, m) :: rest =>
    let lastTS2 := match m.ts with | some t => some t | none => lastTS
    match lastTS2 with
    | none => Except.error "measure without a governing time signature"
    | some t =>
      if mStart ≤ start ∧ start < mStart + t.barQL then
        Except.ok ((mStart, ⟨m.number, m.ts, m.hasClef, m.elems ++ [(start - mStart, e)]⟩) :: rest)
      else
        (placeElement rest lastTS2 start e).map (fun r => (mStart, m) :: r)

/-- Place every `(start, end, element)` entry of the offset map in order. -/
def placeAll : List (ℚ × ℚ × NoteE) → List (ℚ × MeasureS) → Except String (List (ℚ × MeasureS))
  | [], post => Except.ok post
  | (start, _, e) :: rest, post =>
    match placeElement post none start e with
    | Except.error msg => Except.error msg
    | Except.ok post2 => placeAll rest post2

/-- Source `makeMeasures` (`stream.py` lines 1404-1538) on a source stream of note
elements with a provided meter stream: build the offset map (the source's
`round(offset, 8)` is the identity on the exact rationals of this model),
take min/max of its starts/ends (`min` of an empty sequence is the Python
`ValueError` raised on an empty source), check `oMax` against the source's `highestTime`
(`common.almostEquals`, modelled from the spec as equality of exact
rationals), create the measures, and place every element.  The best-fit clef
computation always succeeds and only determines the clef object assigned to
the first measure, which `MeasureS.hasClef` records. -/
def makeMeasures (fuel : ℕ) (src : List (ℚ × NoteE)) (srcIsSorted : Bool)
    (meterStream : List (ℚ × TSig)) : Except String (List (ℚ × MeasureS)) :=
  match src with
  | [] => Except.error "min arg is an empty sequence"
  | s0 :: srest =>
    let offsetMap := (s0 :: srest).map (fun p => (p.1, p.1 + p.2.dur, p.2))
    let _oMin := (srest.map (fun p => p.1)).foldl min s0.1
    let oMax := (srest.map (fun p => p.1 + p.2.dur)).foldl max (s0.1 + s0.2.dur)
    if oMax = noteHighestTime (s0 :: srest) srcIsSorted then
      match measuresLoop meterStream oMax fuel 0 0 none [] with
      | Except.error msg => Except.error msg
      | Except.ok post => placeAll offsetMap post
    else Except.error "mismatch between oMax and highestTime"

/-- The element scan of one `makeTies` measure (`stream.py` lines 1672-1719):
returns the measure's rewritten element list, the remainders to prepend into
the next measure (latest split first, as each Python prepend pushes in front),
and an error when an element starts at or past the measure's end yet reaches
beyond it.  A crossing element keeps `mEnd - offset` of its duration and is
flagged tie-start (the remainder is deep-copied before the tie is attached,
so it keeps the original flag). -/
def tieScan (mEnd : ℚ) (elems : List (ℚ × NoteE)) :
    List (ℚ × NoteE) × List (ℚ × NoteE) × Option String :=
  elems.foldl
    (fun acc pe =>
      match acc.2.2 with
      | some _ => acc
      | none =>
        let eo := pe.1
        let e := pe.2
        if eo + e.dur > mEnd then
          if eo ≥ mEnd then (acc.1, acc.2.1, some "element offset not within measure")
          else
            let qLenBegin := mEnd - eo
            let qLenRemain := e.dur - qLenBegin
            (acc.1 ++ [(eo, ⟨e.ident, qLenBegin, true⟩)],
             ((0 : ℚ), (⟨e.ident, qLenRemain, e.tieStart⟩ : NoteE)) :: acc.2.1,
             none)
        else (acc.1 ++ [pe], acc.2.1, none))
    ([], [], none)

/-- The measure loop of `makeTies` (`stream.py` lines 1637-1720): process
measure `mCount` of the current measure list; resolve the governing meter
(the measure's own, else the last seen; none at all is the fatal access of a
missing meter); split every element crossing the measure's end, prepending
each remainder into the following measure; when the processed measure is the
last one, a fresh measure (numbered one higher, at the following offset,
given a meter only if the active one differs by ratio from the meter stream's
answer there, defaulting when the meter stream is empty) is created and
appended to the stream the first time a remainder needs it.  The `while True`
loop is given fuel. -/
def makeTiesLoop (meterStream : List (ℚ × TSig)) :
    ℕ → ℕ → Option TSig → List (ℚ × MeasureS) → Except String (List (ℚ × MeasureS))
  | 0, _, _, _ => Except.error "out of loop fuel"
  | fuel+1, mCount, lastTS0, struct =>
    if hlt : mCount < struct.length then
      let mo := (struct.get ⟨mCount, hlt⟩).1
      let m := (struct.get ⟨mCount, hlt⟩).2
      let lastTS := match m.ts with | some t => some t | none => lastTS0
      match lastTS with
      | none => Except.error "measure without a governing time signature"
      | some ts =>
        match tieScan ts.barQL m.elems with
        | (_, _, some msg) => Except.error msg
        | (newElems, prepends, none) =>
          let struct2 := struct.set mCount (mo, ⟨m.number, m.ts, m.hasClef, newElems⟩)
          if hnx : mCount + 1 < struct.length then
            let nx := struct.get ⟨mCount + 1, hnx⟩
            let nx2 := (nx.1, (⟨nx.2.number, nx.2.ts, nx.2.hasClef,
                               prepends ++ nx.2.elems⟩ : MeasureS))
            makeTiesLoop meterStream fuel (mCount + 1) lastTS (struct2.set (mCount + 1) nx2)
          else
            if prepends.isEmpty then makeTiesLoop meterStream fuel (mCount + 1) lastTS struct2
            else
              let mNextOffset := mo + ts.barQL
              match (if meterStream.isEmpty then some defaultTS
                     else getTSAtOrBefore meterStream mNextOffset) with
              | none => Except.error "no meter found at offset"
              | some tsNext =>
                let mNext : MeasureS :=
                  ⟨m.number + 1, if ts.ratioEq tsNext then none else some tsNext,
                   false, prepends⟩
                makeTiesLoop meterStream fuel (mCount + 1) lastTS
                  (struct2 ++ [(mNextOffset, mNext)])
    else Except.ok struct

/-- Source `makeTies` (`stream.py` lines 1595-1722) on an already measure-partitioned
stream: fail on an empty stream (the source also fails when no element is a
Measure, which coincides here since the modelled stream holds only measures),
then run the measure loop from the first measure with no meter seen yet. -/
def makeTies (fuel : ℕ) (meterStream : List (ℚ × TSig)) (struct : List (ℚ × MeasureS)) :
    Except String (List (ℚ × MeasureS)) :=
  match struct with
  | [] => Except.error "cannot process an empty stream"
  | _ => makeTiesLoop meterStream fuel 0 none struct

/-- A long note: duration 10. -/
def nLong : MObj := MObj.leaf 1 (some 10) 0

/-- A short note: duration 1. -/
def nShort : MObj := MObj.leaf 2 (some 1) 0

/-- A stream built by `insert(0, nLong); insert(1, nShort)` and then read
through `sorted`: a legitimately offset-ordered stream with `isSorted` true
whose first element nevertheless ends last. -/
def c1Stream : StreamSt :=
  ((emptyStream.insert 0 nLong).insert 1 nShort).sortedOp.2

/-- A stream with two unit notes inserted at offsets 2 then 0 (so its element
list is not in offset order). -/
def c3Source : StreamSt :=
  (emptyStream.insert 2 (MObj.leaf 1 (some 1) 0)).insert 0 (MObj.leaf 2 (some 1) 0)

/-- A sorted stream holding one note of duration 2 at offset 0: its
`highestOffset` is 0 while its `highestTime` is 2. -/
def c4Source : StreamSt := emptyStream.insert 0 (MObj.leaf 1 (some 2) 0)

/-- Two distinct durationless objects sharing offset and priority. -/
def objA : MObj := MObj.leaf 1 none 0

/-- See `objA`. -/
def objB : MObj := MObj.leaf 2 none 0

/-- Stream with `objA` inserted before `objB`, both at offset 0. -/
def c2StreamAB : StreamSt := (emptyStream.insert 0 objA).insert 0 objB

/-- Stream with `objB` inserted before `objA`, both at offset 0. -/
def c2StreamBA : StreamSt := (emptyStream.insert 0 objB).insert 0 objA

/-- A flattened, offset-sorted view holding a note of duration 2 at offset 0
and a durationless element at offset 1 (a point strictly inside the note's
span). -/
def c9Elems : List (ℚ × MObj) := [(0, MObj.leaf 1 (some 2) 0), (1, MObj.leaf 2 none 0)]

/-- The `j`-th back-to-back unit note. -/
def noteOf (j : ℕ) : NoteE := ⟨j, 1, false⟩

/-- A list of `n` duration-1 elements placed back-to-back from offset 0. -/
def backToBack (n : ℕ) : List (ℚ × NoteE) :=
  (List.range n).map (fun (j : ℕ) => ((j : ℚ), noteOf j))

/-- A single 4/4 meter at offset 0. -/
def meter44 : List (ℚ × TSig) := [((0 : ℚ), ts44)]

/-- The measures `a, a+1, ..., a+n-1` of the 4/4 grid, measure `i` spanning
`[4i, 4i+4)`, numbered `i+1`, carrying the meter and clef only at `i = 0`,
with element lists given by `f`. -/
def filledMeasures (f : ℕ → List (ℚ × NoteE)) (a n : ℕ) : List (ℚ × MeasureS) :=
  (List.range' a n).map
    (fun i => (((4 * i : ℕ) : ℚ),
      (⟨i + 1, if i = 0 then some ts44 else none, i == 0, f i⟩ : MeasureS)))

/-- The expected output of `makeMeasures` on `backToBack n` under a single
4/4 meter: `⌈n/4⌉` measures at offsets `4i`, numbered from 1, the meter and
best-fit clef assigned only to the first, and source element `j` reinserted
into measure `j / 4` at measure-relative offset `j % 4`. -/
def expectedMeasures (n : ℕ) : List (ℚ × MeasureS) :=
  (List.range ((n + 3) / 4)).map
    (fun i => (((4 * i : ℕ) : ℚ),
      (⟨i + 1, if i = 0 then some ts44 else none, i == 0,
        ((List.range n).filter (fun j => j / 4 = i)).map
          (fun j => (((j % 4 : ℕ) : ℚ), noteOf j))⟩ : MeasureS)))

/-- C1.  The code contradicts the claim (and its own docstring): on a stream
with `isSorted` true, `_getHighestTime` returns only the last element's
offset plus duration.  `c1Stream` is reachable (two inserts followed by
`sorted`), is genuinely offset-ordered with `isSorted = true`, yet its
`highestTime` is 2 while the maximum of offset plus duration over its
elements is 10. -/
theorem highestTime_ignores_earlier_releases :
    c1Stream.isSorted = true ∧
    c1Stream.highestTimeVal = 2 ∧
    specHighestTime c1Stream.elements = 10 := by
  refine ⟨?_, ?_, ?_⟩ <;>
    norm_num [c1Stream, nLong, nShort, emptyStream, StreamSt.insert, StreamSt.sortedOp,
      StreamSt.highestTimeVal, pySortPairs, List.insertionSort, List.orderedInsert,
      sortLe, streamHT, lastEnd, maxEnd, elemEnd, MObj.durQL, MObj.priority,
      specHighestTime, listIsFlat, List.maximum_cons, List.maximum_nil] <;> decide

/-- C3.  `sorted` reorders the source's own element list in place (the
`post = self.elements` list is `self._elements` itself, not a copy), and the
produced stream's element list is that same list: on `c3Source` the source's
element order changes from offsets `[2, 0]` to `[0, 2]` and coincides with
the result's. -/
theorem sorted_mutates_source :
    c3Source.sortedOp.1.elements ≠ c3Source.elements ∧
    c3Source.sortedOp.1.elements = c3Source.sortedOp.2.elements ∧
    c3Source.sortedOp.2.isSorted = true ∧
    c3Source.sortedOp.1.isSorted = c3Source.isSorted ∧
    c3Source.sortedOp.1.cacheHO = c3Source.cacheHO ∧
    c3Source.sortedOp.1.cacheHT = c3Source.cacheHT := by
  refine ⟨?_, rfl, ?_, rfl, rfl, rfl⟩ <;>
    norm_num [c3Source, emptyStream, StreamSt.insert, StreamSt.sortedOp,
      StreamSt.highestTimeVal, pySortPairs, List.insertionSort, List.orderedInsert,
      sortLe, streamHT, lastEnd, maxEnd, elemEnd, MObj.durQL, MObj.priority, listIsFlat]

/-- C4, counterexample.  `insert` preserves `isSorted` by comparing against
`highestTime`, not `highestOffset`: `c4Source` is sorted with
`highestOffset = 0`, and inserting at offset 1 (which is at or above the
highest offset, so the claim predicts the flag survives) clears `isSorted`
because `highestTime = 2 > 1`. -/
theorem insert_highestOffset_cx :
    c4Source.isSorted = true ∧
    c4Source.highestOffsetVal = 0 ∧
    ((0 : ℚ) ≤ 1) ∧
    (c4Source.insert 1 (MObj.leaf 2 (some 1) 0)).isSorted = false := by
  refine ⟨?_, ?_, by norm_num, ?_⟩ <;>
    norm_num [c4Source, emptyStream, StreamSt.insert, StreamSt.highestTimeVal,
      StreamSt.highestOffsetVal, streamHT, streamHO, lastEnd, lastOff, maxEnd, maxOff,
      elemEnd, MObj.durQL, listIsFlat]

/-- C4, as amended.  On a stream with `isSorted` true, `insert(o, x)` leaves
`isSorted` true exactly when `o` is at or above the stream's current
`highestTime` (not `highestOffset`); it also appends `(o, x)` to the element
list and clears the cached aggregates. -/
theorem insert_amended (s : StreamSt) (o : ℚ) (x : MObj) (h : s.isSorted = true) :
    ((s.insert o x).isSorted = true ↔ s.highestTimeVal ≤ o) ∧
    (s.insert o x).elements = s.elements ++ [(o, x)] ∧
    (s.insert o x).cacheHO = none ∧
    (s.insert o x).cacheHT = none := by
  refine ⟨?_, rfl, rfl, rfl⟩
  simp [StreamSt.insert, h]

/-- Witness for `insert_amended` at the concrete stream `c4Source`. -/
theorem insert_amended_witness :
    ((c4Source.insert 3 (MObj.leaf 2 (some 1) 0)).isSorted = true ↔
      c4Source.highestTimeVal ≤ 3) ∧
    (c4Source.insert 3 (MObj.leaf 2 (some 1) 0)).elements =
      c4Source.elements ++ [((3 : ℚ), MObj.leaf 2 (some 1) 0)] :=
  ⟨(insert_amended c4Source 3 (MObj.leaf 2 (some 1) 0)
      (by norm_num [c4Source, emptyStream, StreamSt.insert, StreamSt.highestTimeVal,
        streamHT, listIsFlat])).1,
   (insert_amended c4Source 3 (MObj.leaf 2 (some 1) 0)
      (by norm_num [c4Source, emptyStream, StreamSt.insert, StreamSt.highestTimeVal,
        streamHT, listIsFlat])).2.1⟩

/-- C2, counterexample.  The sort consults only `(offset, priority)` with a
stable tie-break (the `CLASS_SORT_ORDER` table is never used by `_getSorted`),
so it is not insertion-order independent: `c2StreamAB` and `c2StreamBA` hold
the same `(offset, object)` pairs, yet their `sorted` orders differ. -/
theorem sorted_order_dependent_cx :
    c2StreamAB.elements.Perm c2StreamBA.elements ∧
    c2StreamAB.sortedOp.2.elements ≠ c2StreamBA.sortedOp.2.elements := by
  constructor
  · have hab : c2StreamAB.elements = [(0, objA), (0, objB)] := by
      norm_num [c2StreamAB, emptyStream, StreamSt.insert, listIsFlat]
    have hba : c2StreamBA.elements = [(0, objB), (0, objA)] := by
      norm_num [c2StreamBA, emptyStream, StreamSt.insert, listIsFlat]
    rw [hab, hba]
    exact List.Perm.swap _ _ _
  · norm_num [c2StreamAB, c2StreamBA, emptyStream, StreamSt.insert, StreamSt.sortedOp,
      StreamSt.highestTimeVal, pySortPairs, List.insertionSort, List.orderedInsert,
      sortLe, streamHT, lastEnd, maxEnd, elemEnd, MObj.durQL, MObj.priority,
      listIsFlat, objA, objB]

/-- C2, as amended.  `sorted` returns a permutation of the element list in
nondecreasing `(offset, priority)` order with `isSorted` set, and the sort is
stable: any two elements in key order in the source keep their relative order
in the result.  Class kind takes no part in the key, so insertion-order
independence holds only as far as `(offset, priority)` keys are distinct. -/
theorem sorted_key_order (s : StreamSt) :
    s.sortedOp.2.elements.Perm s.elements ∧
    s.sortedOp.2.elements.Pairwise sortLe ∧
    s.sortedOp.2.isSorted = true ∧
    ∀ p q, sortLe p q → List.Sublist [p, q] s.elements → List.Sublist [p, q] s.sortedOp.2.elements := by
  refine ⟨?_, ?_, rfl, ?_⟩
  · exact List.perm_insertionSort sortLe s.elements
  · exact List.sorted_insertionSort sortLe s.elements
  · intro p q hpq hsub
    exact List.pair_sublist_insertionSort hpq hsub

/-- Witness for `sorted_key_order` at the concrete stream `c2StreamAB`,
exercising the stability clause on its two equal-key elements. -/
theorem sorted_key_order_witness :
    c2StreamAB.sortedOp.2.elements.Perm c2StreamAB.elements ∧
    List.Sublist [((0 : ℚ), objA), ((0 : ℚ), objB)] c2StreamAB.sortedOp.2.elements := by
  refine ⟨(sorted_key_order c2StreamAB).1, ?_⟩
  refine (sorted_key_order c2StreamAB).2.2.2 _ _ ?_ ?_
  · right
    exact ⟨rfl, le_refl _⟩
  · have hab : c2StreamAB.elements = [(0, objA), (0, objB)] := by
      norm_num [c2StreamAB, emptyStream, StreamSt.insert, listIsFlat]
    rw [hab]

theorem foldl_insert_elements (l : List (ℚ × MObj)) :
    ∀ s : StreamSt, (l.foldl (fun acc p => acc.insert p.1 p.2) s).elements = s.elements ++ l := by
  induction l with
  | nil => intro s; simp
  | cons hd tl ih =>
    intro s
    rw [List.foldl_cons, ih]
    simp [StreamSt.insert]

theorem foldl_insert_isSorted (l : List (ℚ × MObj)) :
    ∀ s : StreamSt, s.isSorted = false →
      (l.foldl (fun acc p => acc.insert p.1 p.2) s).isSorted = false := by
  induction l with
  | nil => intro s h; simpa using h
  | cons hd tl ih =>
    intro s h
    simp only [List.foldl_cons]
    exact ih _ (by simp [StreamSt.insert, h])

theorem foldl_insert_cacheHO (l : List (ℚ × MObj)) :
    ∀ s : StreamSt, s.cacheHO = none →
      (l.foldl (fun acc p => acc.insert p.1 p.2) s).cacheHO = none := by
  induction l with
  | nil => intro s h; simpa using h
  | cons hd tl ih =>
    intro s h
    simp only [List.foldl_cons]
    exact ih _ (by simp [StreamSt.insert])

theorem foldl_insert_cacheHT (l : List (ℚ × MObj)) :
    ∀ s : StreamSt, s.cacheHT = none →
      (l.foldl (fun acc p => acc.insert p.1 p.2) s).cacheHT = none := by
  induction l with
  | nil => intro s h; simpa using h
  | cons hd tl ih =>
    intro s h
    simp only [List.foldl_cons]
    exact ih _ (by simp [StreamSt.insert])

/-- The `flat` operation in closed form: the result stream holds exactly the flattened
pairs, with `isSorted` false (the emptied copy starts unsorted and appending
preserves that), `isFlat` forced true and a fresh cache. -/
theorem flatOp_closed (s : StreamSt) :
    s.flatOp = (s, ⟨flatPairs s.elements, false, true, none, none⟩) := by
  unfold StreamSt.flatOp
  refine Prod.ext rfl ?_
  have h1 := foldl_insert_elements (flatPairs s.elements) ⟨[], false, true, none, none⟩
  have h2 := foldl_insert_isSorted (flatPairs s.elements) ⟨[], false, true, none, none⟩ rfl
  have h3 := foldl_insert_cacheHO (flatPairs s.elements) ⟨[], false, true, none, none⟩ rfl
  have h4 := foldl_insert_cacheHT (flatPairs s.elements) ⟨[], false, true, none, none⟩ rfl
  simp only at h1 h2 h3 h4
  simp [h1, h2, h3, h4]

theorem flatPairs_all_leaves (l : List (ℚ × MObj)) :
    ∀ p ∈ flatPairs l, p.2.isStream = false := by
  induction l using flatPairs.induct with
  | case1 => simp [flatPairs]
  | case2 o ces a b c d e rest ih1 ih2 =>
    simp only [flatPairs, List.mem_append, List.mem_map]
    rintro p (⟨q, hq, rfl⟩ | hp)
    · exact ih1 q hq
    · exact ih2 p hp
  | case3 o e rest h ih =>
    intro p hp
    cases e with
    | leaf i d pr =>
      rcases List.mem_cons.mp (by simpa [flatPairs] using hp) with h1 | h1
      · subst h1; rfl
      · exact ih p h1
    | sub a b c d f g => exact absurd rfl (h a b c d f g)

theorem flatPairs_of_leaves (l : List (ℚ × MObj)) (h : ∀ p ∈ l, p.2.isStream = false) :
    flatPairs l = l := by
  induction l with
  | nil => simp [flatPairs]
  | cons hd tl ih =>
    cases hd with | mk o e =>
    cases e with
    | leaf i d pr =>
      simp [flatPairs]
      exact ih (fun p hp => h p (List.mem_cons_of_mem _ hp))
    | sub a b c d f g =>
      exact absurd (h (o, MObj.sub a b c d f g) (List.mem_cons_self _ _))
        (by simp [MObj.isStream])

/-- C5.  Flattening is idempotent — `C.flat.flat` equals `C.flat` outright in
the model (the same pairs in the same order, hence the same multiset of
absolute-offset/element pairs) — and `flat` passes the source stream through
untouched, so repeated calls leave the source's element list unchanged. -/
theorem flat_idempotent (s : StreamSt) :
    s.flatOp.2.flatOp.2 = s.flatOp.2 ∧
    s.flatOp.1 = s ∧
    s.flatOp.2.flatOp.1 = s.flatOp.2 := by
  refine ⟨?_, ?_, ?_⟩
  · rw [flatOp_closed s, flatOp_closed]
    simp only
    rw [flatPairs_of_leaves _ (flatPairs_all_leaves s.elements)]
  · rw [flatOp_closed]
  · rw [flatOp_closed s, flatOp_closed]

theorem spanLexLt_iff (x y : ℚ × ℚ) :
    spanLexLt x y = true ↔ x.1 < y.1 ∨ (x.1 = y.1 ∧ x.2 < y.2) := by
  simp [spanLexLt]

theorem durSpanOverlap_comm (a b : ℚ × ℚ) (icb : Bool) :
    durSpanOverlap a b icb = durSpanOverlap b a icb := by
  by_cases h1 : spanLexLt b a = true
  · by_cases h2 : spanLexLt a b = true
    · exfalso
      rcases (spanLexLt_iff b a).mp h1 with h | ⟨he, hl⟩ <;>
        rcases (spanLexLt_iff a b).mp h2 with h' | ⟨he', hl'⟩ <;> linarith
    · simp [durSpanOverlap, h1, h2]
  · by_cases h2 : spanLexLt a b = true
    · simp [durSpanOverlap, h1, h2]
    · have e1 : a.1 = b.1 :=
        le_antisymm
          (not_lt.mp fun h => h1 ((spanLexLt_iff b a).mpr (Or.inl h)))
          (not_lt.mp fun h => h2 ((spanLexLt_iff a b).mpr (Or.inl h)))
      have e2 : a.2 = b.2 := by
        have n1 : ¬(b.2 < a.2) := fun h => h1 ((spanLexLt_iff b a).mpr (Or.inr ⟨e1.symm, h⟩))
        have n2 : ¬(a.2 < b.2) := fun h => h2 ((spanLexLt_iff a b).mpr (Or.inr ⟨e1, h⟩))
        exact le_antisymm (not_lt.mp n1) (not_lt.mp n2)
      have hab : a = b := Prod.ext e1 e2
      rw [hab]

/-- C8, counterexample.  The code compares the later start against the end of
the span that sorts lexicographically first, not against the smaller end: for
the note span `[0, 10)` and the degenerate point span of a durationless
element at 5, the code reports an overlap although `max(starts) < min(ends)`
fails. -/
theorem durSpanOverlap_degenerate_cx :
    durSpanOverlap (0, 10) (5, 5) false = true ∧
    ¬(max (0 : ℚ) 5 < min (10 : ℚ) 5) := by
  constructor
  · norm_num [durSpanOverlap, spanLexLt]
  · norm_num

/-- C8, as amended.  For spans of positive length the overlap test agrees
with the claim: without the flag it reports overlap iff
`max(starts) < min(ends)`, and with the coincident-boundary flag iff
`max(starts) ≤ min(ends)` (exactly touching spans then count); in particular
`[0,12)` and `[11,14)` overlap, while `[0,3)` and `[3,6)` overlap only with
the flag.  For a degenerate point span lying inside the other span the code
departs from the `max/min` formula (see the counterexample). -/
theorem durSpanOverlap_amended (a b : ℚ × ℚ) (ha : a.1 < a.2) (hb : b.1 < b.2) :
    (durSpanOverlap a b false = true ↔ max a.1 b.1 < min a.2 b.2) ∧
    (durSpanOverlap a b true = true ↔ max a.1 b.1 ≤ min a.2 b.2) ∧
    durSpanOverlap (0, 12) (11, 14) false = true ∧
    durSpanOverlap (0, 3) (3, 6) false = false ∧
    durSpanOverlap (0, 3) (3, 6) true = true := by
  refine ⟨?_, ?_, by norm_num [durSpanOverlap, spanLexLt],
    by norm_num [durSpanOverlap, spanLexLt], by norm_num [durSpanOverlap, spanLexLt]⟩
  all_goals by_cases hlex : spanLexLt b a = true
  case pos | pos =>
    have hb1 : b.1 ≤ a.1 := by
      rcases (spanLexLt_iff b a).mp hlex with h | ⟨h, _⟩
      · exact le_of_lt h
      · exact le_of_eq h
    have hmax : max a.1 b.1 = a.1 := max_eq_left hb1
    simp only [durSpanOverlap, hlex, if_true, if_false, decide_eq_true_eq,
      Bool.false_eq_true, Bool.true_eq_false]
    rw [hmax]
    constructor
    · intro h
      first
        | exact lt_min ha h
        | exact le_min (le_of_lt ha) h
    · intro h
      first
        | exact lt_of_lt_of_le h (min_le_right _ _)
        | exact le_trans h (min_le_right _ _)
  case neg | neg =>
    have ha1 : a.1 ≤ b.1 := by
      rcases lt_trichotomy b.1 a.1 with h | h | h
      · exact absurd ((spanLexLt_iff b a).mpr (Or.inl h)) hlex
      · exact le_of_eq h.symm
      · exact le_of_lt h
    have hmax : max a.1 b.1 = b.1 := max_eq_right ha1
    simp only [durSpanOverlap, hlex, if_true, if_false, decide_eq_true_eq,
      Bool.false_eq_true, Bool.true_eq_false]
    rw [hmax]
    constructor
    · intro h
      first
        | exact lt_min h hb
        | exact le_min h (le_of_lt hb)
    · intro h
      first
        | exact lt_of_lt_of_le h (min_le_left _ _)
        | exact le_trans h (min_le_left _ _)

/-- Witness for `durSpanOverlap_amended` at the positive-length spans
`[0, 12)` and `[11, 14)`. -/
theorem durSpanOverlap_amended_witness :
    (durSpanOverlap (0, 12) (11, 14) false = true ↔
      max (0 : ℚ) 11 < min (12 : ℚ) 14) :=
  (durSpanOverlap_amended (0, 12) (11, 14) (by norm_num) (by norm_num)).1

theorem range_map_getD {β : Type} (n : ℕ) (f : ℕ → β) (d : β) (i : ℕ) :
    ((List.range n).map f).getD i d = if i < n then f i else d := by
  by_cases h : i < n
  · rw [if_pos h, List.getD_eq_getElem?_getD, List.getElem?_map, List.getElem?_range h]
    rfl
  · rw [if_neg h, List.getD_eq_getElem?_getD,
      List.getElem?_eq_none (by simpa using not_lt.mp h)]
    rfl

theorem mem_overRow_true (spans : List (ℚ × ℚ)) (durless : List Bool) (icb : Bool)
    (i j : ℕ) :
    j ∈ overRow spans durless true icb i ↔
      j < spans.length ∧ j ≠ i ∧
        durSpanOverlap (spans.getD i (0, 0)) (spans.getD j (0, 0)) icb = true := by
  simp [overRow, List.mem_filter, List.mem_range, and_assoc]

theorem mem_simRow_true (spans : List (ℚ × ℚ)) (durless : List Bool) (i j : ℕ) :
    j ∈ simRow spans durless true i ↔
      j < spans.length ∧ j ≠ i ∧
        (spans.getD i (0, 0)).1 = (spans.getD j (0, 0)).1 := by
  simp [simRow, List.mem_filter, List.mem_range, and_assoc]

/-- C9, as amended.  The index lists of `_findLayering` are always
self-excluded, and they are symmetric when durationless elements are included;
when the configuration excludes durationless elements, a skipped element's own
lists are empty while its index can still appear in other elements' lists (see
the counterexample), so symmetry holds only for the inclusive configuration. -/
theorem findLayering_amended (es : List (ℚ × MObj)) (idl icb : Bool) (i j : ℕ) :
    i ∉ ((findLayering es idl icb).2.getD i []) ∧
    i ∉ ((findLayering es idl icb).1.getD i []) ∧
    (j ∈ ((findLayering es true icb).2.getD i [] : List ℕ) ↔
      i ∈ ((findLayering es true icb).2.getD j [] : List ℕ)) ∧
    (j ∈ ((findLayering es true icb).1.getD i [] : List ℕ) ↔
      i ∈ ((findLayering es true icb).1.getD j [] : List ℕ)) := by
  refine ⟨?_, ?_, ?_, ?_⟩
  · simp only [findLayering, range_map_getD]
    by_cases h : i < (getDurSpan (pySortPairs es)).length
    · rw [if_pos h]
      intro hmem
      unfold overRow at hmem
      rcases Bool.eq_false_or_eq_true (!idl && List.getD _ i false) with hskip | hskip
      · rw [hskip, if_pos rfl] at hmem
        exact List.not_mem_nil _ hmem
      · rw [hskip, if_neg (by simp)] at hmem
        rcases List.mem_filter.mp hmem with ⟨_, hpred⟩
        simp at hpred
    · rw [if_neg h]
      exact List.not_mem_nil _
  · simp only [findLayering, range_map_getD]
    by_cases h : i < (getDurSpan (pySortPairs es)).length
    · rw [if_pos h]
      intro hmem
      unfold simRow at hmem
      rcases Bool.eq_false_or_eq_true (!idl && List.getD _ i false) with hskip | hskip
      · rw [hskip, if_pos rfl] at hmem
        exact List.not_mem_nil _ hmem
      · rw [hskip, if_neg (by simp)] at hmem
        rcases List.mem_filter.mp hmem with ⟨_, hpred⟩
        simp at hpred
    · rw [if_neg h]
      exact List.not_mem_nil _
  · simp only [findLayering, range_map_getD]
    by_cases hi : i < (getDurSpan (pySortPairs es)).length <;>
      by_cases hj : j < (getDurSpan (pySortPairs es)).length
    · rw [if_pos hi, if_pos hj, mem_overRow_true, mem_overRow_true]
      rw [durSpanOverlap_comm]
      exact ⟨fun ⟨_, hne, hov⟩ => ⟨hi, Ne.symm hne, hov⟩,
             fun ⟨_, hne, hov⟩ => ⟨hj, Ne.symm hne, hov⟩⟩
    · rw [if_pos hi, if_neg hj, mem_overRow_true]
      simp only [List.not_mem_nil, iff_false]
      intro ⟨hjlt, _, _⟩
      exact hj hjlt
    · rw [if_neg hi, if_pos hj, mem_overRow_true]
      simp only [List.not_mem_nil, false_iff]
      intro ⟨hilt, _, _⟩
      exact hi hilt
    · rw [if_neg hi, if_neg hj]
      simp
  · simp only [findLayering, range_map_getD]
    by_cases hi : i < (getDurSpan (pySortPairs es)).length <;>
      by_cases hj : j < (getDurSpan (pySortPairs es)).length
    · rw [if_pos hi, if_pos hj, mem_simRow_true, mem_simRow_true]
      exact ⟨fun ⟨_, hne, hov⟩ => ⟨hi, Ne.symm hne, hov.symm⟩,
             fun ⟨_, hne, hov⟩ => ⟨hj, Ne.symm hne, hov.symm⟩⟩
    · rw [if_pos hi, if_neg hj, mem_simRow_true]
      simp only [List.not_mem_nil, iff_false]
      intro ⟨hjlt, _, _⟩
      exact hj hjlt
    · rw [if_neg hi, if_pos hj, mem_simRow_true]
      simp only [List.not_mem_nil, false_iff]
      intro ⟨hilt, _, _⟩
      exact hi hilt
    · rw [if_neg hi, if_neg hj]
      simp

/-- Witness for `findLayering_amended`: symmetry of the overlap map at the
concrete view `c9Elems` with durationless elements included. -/
theorem findLayering_amended_witness :
    1 ∈ ((findLayering c9Elems true false).2.getD 0 [] : List ℕ) ↔
      0 ∈ ((findLayering c9Elems true false).2.getD 1 [] : List ℕ) :=
  (findLayering_amended c9Elems true false 0 1).2.2.1

/-- C9, counterexample.  With the configuration that excludes durationless
elements, `_findLayering` skips the durationless element's own row but other
rows still cite it: on `c9Elems` the duration-2 note's overlap list contains
the durationless element's index 1, while the durationless element's list is
empty — the maps are not symmetric. -/
theorem findLayering_asymmetric_cx :
    1 ∈ ((findLayering c9Elems false false).2.getD 0 [] : List ℕ) ∧
    0 ∉ ((findLayering c9Elems false false).2.getD 1 [] : List ℕ) := by
  have hsort : pySortPairs c9Elems = c9Elems := by
    norm_num [pySortPairs, c9Elems, List.insertionSort, List.orderedInsert, sortLe,
      MObj.priority]
  have hspan : getDurSpan c9Elems = [(0, 2), (1, 1)] := by
    norm_num [getDurSpan, c9Elems, MObj.durQL]
  constructor
  · simp only [findLayering, hsort, hspan]
    norm_num [range_map_getD, overRow, MObj.durQL, c9Elems, List.range_succ,
      durSpanOverlap, spanLexLt]
  · simp only [findLayering, hsort, hspan]
    norm_num [range_map_getD, overRow, MObj.durQL, c9Elems, List.range_succ,
      durSpanOverlap, spanLexLt]

/-- C7.  On a measure-partitioned structure whose single 4-beat measure holds
a duration-6 element starting 2 beats before the measure's end, `makeTies`
yields exactly two elements: a duration-2 tie-start part ending at the
boundary, and a duration-4 remainder prepended at offset 0 of a newly created
following measure (numbered 2, inheriting the prevailing meter, hence no
meter of its own); the two durations sum to the original 6. -/
theorem makeTies_split_at_boundary :
    makeTies 3 meter44 [((0 : ℚ), (⟨1, some ts44, false, [((2 : ℚ), ⟨1, 6, false⟩)]⟩ : MeasureS))] =
      Except.ok [((0 : ℚ), (⟨1, some ts44, false, [((2 : ℚ), ⟨1, 2, true⟩)]⟩ : MeasureS)),
                 ((4 : ℚ), (⟨2, none, false, [((0 : ℚ), ⟨1, 4, false⟩)]⟩ : MeasureS))] ∧
    (2 : ℚ) + 4 = 6 := by
  constructor
  · norm_num [makeTies, makeTiesLoop, tieScan, getTSAtOrBefore, tsCandidates,
      minBySpanFirst, TSig.barQL, ts44, meter44, TSig.ratioEq, defaultTS, List.set]
  · norm_num

/-- C10.  `makeMeasures` on an empty source fails before creating any
measure: the offset map is empty and Python's `min` over it raises, so a
non-empty source is indeed a precondition. -/
theorem makeMeasures_empty_fails (fuel : ℕ) (so : Bool) (ms : List (ℚ × TSig)) :
    makeMeasures fuel [] so ms = Except.error "min arg is an empty sequence" := rfl

theorem getTS_meter44 (o : ℚ) (ho : 0 ≤ o) : getTSAtOrBefore meter44 o = some ts44 := by
  unfold getTSAtOrBefore tsCandidates minBySpanFirst meter44
  rcases eq_or_lt_of_le ho with h | h
  · simp [← h]
  · simp [sub_zero, not_lt.mpr ho, h.ne', le_refl]

theorem ts44_barQL : ts44.barQL = 4 := by
  norm_num [TSig.barQL, ts44]

theorem measuresLoop_meter44 (N : ℕ) :
    ∀ fuel k (acc : List (ℚ × MeasureS)),
      k < (N + 3) / 4 →
      (N + 3) / 4 - k ≤ fuel →
      measuresLoop meter44 (N : ℚ) fuel ((4 * k : ℕ) : ℚ) k
          (if k = 0 then none else some ts44) acc =
        Except.ok (acc ++ filledMeasures (fun _ => []) k ((N + 3) / 4 - k)) := by
  intro fuel
  induction fuel with
  | zero => intro k acc hk hf; omega
  | succ fuel ih =>
    intro k acc hk hf
    rw [measuresLoop, getTS_meter44 _ (by positivity)]
    simp only
    rw [if_neg (by rw [ts44_barQL]; norm_num)]
    have hts : (if (if k = 0 then none else some ts44) = some ts44 then (none : Option TSig)
        else some ts44) = if k = 0 then some ts44 else none := by
      by_cases hk0 : k = 0 <;> simp [hk0]
    rw [hts]
    have hcast : ((4 * k : ℕ) : ℚ) + ts44.barQL = ((4 * (k + 1) : ℕ) : ℚ) := by
      rw [ts44_barQL]; push_cast; ring
    rw [hcast]
    have hstop : ((N : ℚ) ≤ ((4 * (k + 1) : ℕ) : ℚ)) ↔ N ≤ 4 * (k + 1) := by
      exact_mod_cast Iff.rfl
    by_cases hdone : N ≤ 4 * (k + 1)
    · rw [if_pos (hstop.mpr hdone)]
      have hK : (N + 3) / 4 - k = 1 := by omega
      rw [hK]
      simp [filledMeasures, List.range'_succ]
    · rw [if_neg (fun hc => hdone (hstop.mp hc))]
      have hne : k + 1 ≠ 0 := Nat.succ_ne_zero k
      have harg : (some ts44 : Option TSig) = if k + 1 = 0 then none else some ts44 := by
        rw [if_neg hne]
      rw [harg, ih (k + 1) _ (by omega) (by omega)]
      have hsplit : (N + 3) / 4 - k = ((N + 3) / 4 - (k + 1)) + 1 := by omega
      rw [hsplit]
      simp only [filledMeasures, List.range'_succ, List.map_cons, List.append_assoc,
        List.cons_append, List.nil_append]
      simp [hne]

theorem filledMeasures_congr {f g : ℕ → List (ℚ × NoteE)} (a n : ℕ)
    (h : ∀ i, a ≤ i → i < a + n → f i = g i) :
    filledMeasures f a n = filledMeasures g a n := by
  unfold filledMeasures
  refine List.map_congr_left ?_
  intro i hi
  rcases List.mem_range'_1.mp hi with ⟨h1, h2⟩
  rw [h i h1 h2]

theorem placeElement_filled (n : ℕ) :
    ∀ a (f : ℕ → List (ℚ × NoteE)) (j : ℕ) (e : NoteE),
      a ≤ j / 4 → j / 4 < a + n →
      placeElement (filledMeasures f a n) (if a = 0 then none else some ts44) (j : ℚ) e =
        Except.ok (filledMeasures
          (fun i => if i = j / 4 then f i ++ [(((j % 4 : ℕ) : ℚ), e)] else f i) a n) := by
  induction n with
  | zero => intro a f j e h1 h2; omega
  | succ n ih =>
    intro a f j e h1 h2
    rw [filledMeasures, List.range'_succ, List.map_cons, placeElement]
    have hts2 : (match (if a = 0 then some ts44 else none : Option TSig) with
        | some t => some t
        | none => (if a = 0 then none else some ts44 : Option TSig)) = some ts44 := by
      by_cases ha : a = 0 <;> simp [ha]
    simp only
    rw [hts2]
    simp only
    have hcond : (((4 * a : ℕ) : ℚ) ≤ (j : ℚ) ∧ (j : ℚ) < ((4 * a : ℕ) : ℚ) + ts44.barQL) ↔
        (4 * a ≤ j ∧ j < 4 * a + 4) := by
      rw [ts44_barQL]
      constructor
      · intro hx
        have x1 : 4 * a ≤ j := by exact_mod_cast hx.1
        have x2 : (j : ℚ) < ((4 * a + 4 : ℕ) : ℚ) := by push_cast; push_cast at hx; linarith [hx.2]
        exact ⟨x1, by exact_mod_cast x2⟩
      · intro hx
        constructor
        · exact_mod_cast hx.1
        · have hq : (j : ℚ) < ((4 * a + 4 : ℕ) : ℚ) := by exact_mod_cast hx.2
          push_cast at hq ⊢
          linarith
    by_cases hja : j / 4 = a
    · rw [if_pos (hcond.mpr (by omega))]
      have hoff : (j : ℚ) - ((4 * a : ℕ) : ℚ) = ((j % 4 : ℕ) : ℚ) := by
        have hj4 : j % 4 + 4 * a = j := by omega
        have hq : ((j % 4 : ℕ) : ℚ) + ((4 * a : ℕ) : ℚ) = (j : ℚ) := by
          exact_mod_cast congrArg (fun t => ((t : ℕ) : ℚ)) hj4
        linarith
      rw [hoff]
      rw [filledMeasures, List.range'_succ, List.map_cons]
      rw [if_pos hja.symm]
      have htail : List.map (fun i => (((4 * i : ℕ) : ℚ),
            (⟨i + 1, if i = 0 then some ts44 else none, i == 0,
              if i = j / 4 then f i ++ [(((j % 4 : ℕ) : ℚ), e)] else f i⟩ : MeasureS)))
          (List.range' (a + 1) n) =
          List.map (fun i => (((4 * i : ℕ) : ℚ),
            (⟨i + 1, if i = 0 then some ts44 else none, i == 0, f i⟩ : MeasureS)))
          (List.range' (a + 1) n) := by
        refine List.map_congr_left ?_
        intro i hi
        rcases List.mem_range'_1.mp hi with ⟨hi1, _⟩
        have hne2 : ¬ i = j / 4 := by omega
        simp [hne2]
      rw [htail]
    · rw [if_neg (fun hc => hja (by have := hcond.mp hc; omega))]
      have hih := ih (a + 1) f j e (by omega) (by omega)
      rw [if_neg (Nat.succ_ne_zero a)] at hih
      have hfold : (List.map (fun i => (((4 * i : ℕ) : ℚ),
            (⟨i + 1, if i = 0 then some ts44 else none, i == 0, f i⟩ : MeasureS)))
          (List.range' (a + 1) n)) = filledMeasures f (a + 1) n := rfl
      rw [hfold, hih]
      simp only [Except.map]
      conv_rhs => rw [filledMeasures, List.range'_succ, List.map_cons]
      rw [if_neg (show ¬ a = j / 4 from fun hc => hja hc.symm)]
      rfl

theorem placeAll_filled (K : ℕ) (js : List ℕ) :
    ∀ (f : ℕ → List (ℚ × NoteE)),
      (∀ j ∈ js, j / 4 < K) →
      placeAll (js.map (fun (j : ℕ) => ((j : ℚ), ((j : ℚ) + 1, noteOf j)))) (filledMeasures f 0 K) =
        Except.ok (filledMeasures
          (fun i => f i ++ (js.filter (fun j => j / 4 = i)).map
            (fun j => (((j % 4 : ℕ) : ℚ), noteOf j))) 0 K) := by
  induction js with
  | nil =>
    intro f h
    simp only [List.map_nil, placeAll, List.filter_nil, List.map_nil, List.append_nil]
  | cons j rest ih =>
    intro f h
    rw [List.map_cons, placeAll]
    have hp := placeElement_filled K 0 f j (noteOf j) (Nat.zero_le _)
      (by simpa using h j (List.mem_cons_self _ _))
    rw [if_pos rfl] at hp
    rw [hp]
    have hred : (match Except.ok (filledMeasures
          (fun i => if i = j / 4 then f i ++ [(((j % 4 : ℕ) : ℚ), noteOf j)] else f i) 0 K) with
        | Except.error msg => Except.error msg
        | Except.ok post2 =>
            placeAll (List.map (fun (j : ℕ) => ((j : ℚ), ((j : ℚ) + 1, noteOf j))) rest) post2) =
        placeAll (List.map (fun (j : ℕ) => ((j : ℚ), ((j : ℚ) + 1, noteOf j))) rest)
          (filledMeasures
            (fun i => if i = j / 4 then f i ++ [(((j % 4 : ℕ) : ℚ), noteOf j)] else f i) 0 K) := rfl
    rw [hred]
    rw [ih _ (fun x hx => h x (List.mem_cons_of_mem _ hx))]
    refine congrArg Except.ok (filledMeasures_congr 0 K ?_)
    intro i _ _
    by_cases hji : i = j / 4
    · rw [if_pos hji, List.filter_cons, if_pos (by simpa using hji.symm)]
      simp [List.append_assoc]
    · rw [if_neg hji, List.filter_cons, if_neg (by simpa using fun hc => hji hc.symm)]

theorem foldl_max_ends (m : ℕ) :
    ∀ (s : ℕ) (a : ℚ), a ≤ (s : ℚ) →
      (((List.range' s m).map (fun (j : ℕ) => ((j : ℚ) + 1))).foldl max a) =
        if m = 0 then a else ((s + m : ℕ) : ℚ) := by
  induction m with
  | zero => intro s a _; simp
  | succ m ih =>
    intro s a ha
    rw [List.range'_succ, List.map_cons, List.foldl_cons]
    have hmax : max a ((s : ℚ) + 1) = (s : ℚ) + 1 := max_eq_right (by linarith)
    rw [hmax]
    have hstep : ((s : ℚ) + 1) = (((s + 1 : ℕ)) : ℚ) := by push_cast; ring
    rw [hstep, ih (s + 1) _ (le_refl _)]
    by_cases hm : m = 0
    · subst hm; simp
    · rw [if_neg hm, if_neg (Nat.succ_ne_zero m)]
      congr 1
      omega

theorem noteLastEnd_ends (m : ℕ) :
    ∀ (s : ℕ) (x : ℚ × NoteE),
      noteLastEnd x ((List.range' s m).map (fun (j : ℕ) => ((j : ℚ), noteOf j))) =
        if m = 0 then x.1 + x.2.dur else ((s + m : ℕ) : ℚ) := by
  induction m with
  | zero => intro s x; simp [noteLastEnd]
  | succ m ih =>
    intro s x
    rw [List.range'_succ, List.map_cons, noteLastEnd, ih (s + 1)]
    by_cases hm : m = 0
    · subst hm
      simp only [if_pos rfl, if_neg (Nat.succ_ne_zero 0)]
      show (s : ℚ) + (noteOf s).dur = ((s + 1 : ℕ) : ℚ)
      norm_num [noteOf]
    · rw [if_neg hm, if_neg (Nat.succ_ne_zero m)]
      congr 1
      omega

/-- C6.  On `N ≥ 1` back-to-back unit notes under a single 4/4 meter (and
enough fuel for the source's `while True` loop, `⌈N/4⌉` rounds),
`makeMeasures` returns exactly `⌈N/4⌉` measures of bar length 4 at offsets
`0, 4, 8, ...`, numbered from 1, the meter and best-fit clef on the first
measure only, and each source element `j` reinserted into the unique measure
`j / 4` whose span `[4(j/4), 4(j/4) + 4)` contains its start offset, at the
measure-relative offset `j % 4`. -/
theorem makeMeasures_44 (N fuel : ℕ) (hN : 0 < N) (hfuel : (N + 3) / 4 ≤ fuel) :
    makeMeasures fuel (backToBack N) true meter44 = Except.ok (expectedMeasures N) := by
  obtain ⟨M, rfl⟩ : ∃ M, N = M + 1 := ⟨N - 1, by omega⟩
  have hsrc : backToBack (M + 1) =
      ((0 : ℚ), noteOf 0) :: (List.range' 1 M).map (fun (j : ℕ) => ((j : ℚ), noteOf j)) := by
    rw [backToBack, List.range_eq_range', List.range'_succ, List.map_cons]
    norm_num
  rw [hsrc, makeMeasures]
  simp only
  -- the two aggregates both equal N = M + 1
  have hends : (((List.range' 1 M).map (fun (j : ℕ) => ((j : ℚ), noteOf j))).map
      (fun p => p.1 + p.2.dur)) = (List.range' 1 M).map (fun (j : ℕ) => ((j : ℚ) + 1)) := by
    rw [List.map_map]
    exact List.map_congr_left (fun x _ => by simp [noteOf, Function.comp])
  have hoMax : ((((List.range' 1 M).map (fun (j : ℕ) => ((j : ℚ), noteOf j))).map
      (fun p => p.1 + p.2.dur)).foldl max ((0 : ℚ) + (noteOf 0).dur)) = ((M + 1 : ℕ) : ℚ) := by
    rw [hends]
    have h0 : ((0 : ℚ) + (noteOf 0).dur) = 1 := by norm_num [noteOf]
    rw [h0, foldl_max_ends M 1 1 (by norm_num)]
    by_cases hm : M = 0
    · subst hm; norm_num
    · rw [if_neg hm]; congr 1; omega
  have hht : noteHighestTime (((0 : ℚ), noteOf 0) ::
      (List.range' 1 M).map (fun (j : ℕ) => ((j : ℚ), noteOf j))) true = ((M + 1 : ℕ) : ℚ) := by
    rw [noteHighestTime, if_pos rfl, noteLastEnd_ends M 1]
    by_cases hm : M = 0
    · subst hm; norm_num [noteOf]
    · rw [if_neg hm]; congr 1; omega
  rw [hoMax, hht, if_pos rfl]
  -- the measure-creation loop
  have hK : 0 < (M + 1 + 3) / 4 := by omega
  have hloop := measuresLoop_meter44 (M + 1) fuel 0 [] hK (by omega)
  rw [if_pos rfl] at hloop
  have h40 : ((4 * 0 : ℕ) : ℚ) = 0 := by norm_num
  rw [h40, Nat.sub_zero] at hloop
  rw [hloop]
  simp only [List.nil_append]
  -- element placement
  have hmap : (((0 : ℚ), noteOf 0) ::
        (List.range' 1 M).map (fun (j : ℕ) => ((j : ℚ), noteOf j))).map
      (fun p => (p.1, p.1 + p.2.dur, p.2)) =
      (List.range (M + 1)).map (fun (j : ℕ) => ((j : ℚ), ((j : ℚ) + 1, noteOf j))) := by
    rw [List.range_eq_range', List.range'_succ, List.map_cons, List.map_cons, List.map_map]
    simp [Function.comp_def, noteOf]
  rw [hmap]
  rw [placeAll_filled ((M + 1 + 3) / 4) (List.range (M + 1)) (fun _ => [])
    (fun j hj => by have := List.mem_range.mp hj; omega)]
  refine congrArg Except.ok ?_
  simp only [expectedMeasures, List.range_eq_range']
  unfold filledMeasures
  refine List.map_congr_left ?_
  intro i _
  simp only [List.nil_append]

/-- Witness for `makeMeasures_44`: five unit notes yield two measures. -/
theorem makeMeasures_44_witness :
    0 < 5 ∧ (5 + 3) / 4 ≤ 2 ∧
    makeMeasures 2 (backToBack 5) true meter44 = Except.ok (expectedMeasures 5) :=
  ⟨by decide, by decide, makeMeasures_44 5 2 (by decide) (by decide)⟩
